import Mathlib

/-!
Verification of the `noagent` directory-tree text-file formatter
(source: `src/index.js`).

Strings are modelled as `List Char` and filesystem paths as lists of path
segments (`List (List Char)`), all absolute and normalized (the walker only
ever builds paths by joining an absolute directory with plain entry names, so
`path.resolve` is the identity on them).  The filesystem itself is a finite
association list from physical paths to node kinds; symbolic links are
explicit nodes, and the `lstat`/`stat`/`readdir` system calls are modelled by
a fuel-bounded symlink resolution function.
-/

namespace Noagent

/-- JS strings are modelled as lists of characters. -/
abbrev Str := List Char

/-- An absolute filesystem path, as a list of path segments. -/
abbrev FsPath := List Str

/-- Shorthand for turning a Lean string literal into the `Str` model. -/
def strL (s : String) : Str := s.toList

/-! ## Normalizer (`formatFileContent`, src/index.js lines 186-192) -/

/-- Trailing-whitespace characters removed by the per-line regex `[ \t]+$`. -/
def isWS (c : Char) : Bool := c == ' ' || c == '\t'

/-- JS `String.prototype.split(sep)` for a single-character separator:
`n` separators yield `n + 1` pieces, and `"".split(sep) = [""]`. -/
def splitOnChar (sep : Char) : Str → List Str
  | [] => [[]]
  | c :: cs =>
    if c = sep then [] :: splitOnChar sep cs
    else
      match splitOnChar sep cs with
      | [] => [[c]]
      | h :: t => (c :: h) :: t

/-- JS `Array.prototype.join('\n')`. -/
def joinNL : List Str → Str
  | [] => []
  | [l] => l
  | l :: l2 :: ls => l ++ '\n' :: joinNL (l2 :: ls)

/-- Models `line.replace(/[ \t]+$/g, '')`: remove the trailing run of
spaces and tabs from one line. -/
def trimTrailingWS (l : Str) : Str := (l.reverse.dropWhile isWS).reverse

/-- Models `.replace(/\n*$/, '')`: remove the maximal trailing run of
newline characters. -/
def dropTrailingNL (s : Str) : Str :=
  (s.reverse.dropWhile (fun c => c == '\n')).reverse

/-- The normalization transform (`formatFileContent`): split on `'\n'`,
strip trailing spaces/tabs from every line, rejoin with `'\n'`, drop all
trailing newlines and append exactly one. -/
def formatFileContent (content : Str) : Str :=
  dropTrailingNL (joinNL ((splitOnChar '\n' content).map trimTrailingWS)) ++ ['\n']

example : formatFileContent (strL "let x = 1;   \n\n\n") = strL "let x = 1;\n" := by decide

example : formatFileContent [] = ['\n'] := by decide

example : formatFileContent (strL "a \n\t\n") = strL "a\n" := by decide

/-! ## Lemmas about the normalizer -/

theorem splitOnChar_ne_nil (sep : Char) (s : Str) : splitOnChar sep s ≠ [] := by
  induction s with
  | nil => simp [splitOnChar]
  | cons c cs ih =>
    simp only [splitOnChar]
    split
    · simp
    · split
      · simp
      · simp

theorem splitOnChar_eq_cons (sep : Char) (cs : Str) :
    ∃ hd tl, splitOnChar sep cs = hd :: tl := by
  cases hq : splitOnChar sep cs with
  | nil => exact absurd hq (splitOnChar_ne_nil _ _)
  | cons a b => exact ⟨a, b, rfl⟩

theorem splitOnChar_sep_cons (sep : Char) (cs : Str) :
    splitOnChar sep (sep :: cs) = [] :: splitOnChar sep cs := by
  simp [splitOnChar]

theorem splitOnChar_cons_ne {sep c : Char} (cs : Str) (h : ¬ c = sep) {hd : Str}
    {tl : List Str} (hs : splitOnChar sep cs = hd :: tl) :
    splitOnChar sep (c :: cs) = (c :: hd) :: tl := by
  simp only [splitOnChar, if_neg h, hs]

theorem joinNL_cons_of_ne_nil (l : Str) {ls : List Str} (h : ls ≠ []) :
    joinNL (l :: ls) = l ++ '\n' :: joinNL ls := by
  cases ls with
  | nil => exact absurd rfl h
  | cons a as => rfl

theorem joinNL_splitOnChar (s : Str) : joinNL (splitOnChar '\n' s) = s := by
  induction s with
  | nil => rfl
  | cons c cs ih =>
    by_cases h : c = '\n'
    · subst h
      rw [splitOnChar_sep_cons, joinNL_cons_of_ne_nil _ (splitOnChar_ne_nil _ _), ih]
      rfl
    · obtain ⟨hd, tl, hs⟩ := splitOnChar_eq_cons '\n' cs
      rw [splitOnChar_cons_ne cs h hs]
      rw [hs] at ih
      cases tl with
      | nil =>
        simp only [joinNL] at ih ⊢
        rw [ih]
      | cons h2 t2 =>
        rw [joinNL_cons_of_ne_nil _ (by simp)]
        rw [joinNL_cons_of_ne_nil _ (by simp)] at ih
        rw [List.cons_append, ih]

theorem not_mem_of_mem_splitOnChar {sep : Char} {s l : Str}
    (hl : l ∈ splitOnChar sep s) : sep ∉ l := by
  induction s generalizing l with
  | nil =>
    simp only [splitOnChar, List.mem_singleton] at hl
    subst hl; simp
  | cons c cs ih =>
    by_cases h : c = sep
    · subst h
      rw [splitOnChar_sep_cons] at hl
      rcases List.mem_cons.mp hl with h1 | h1
      · subst h1; simp
      · exact ih h1
    · obtain ⟨hd, tl, hs⟩ := splitOnChar_eq_cons sep cs
      have hhd : sep ∉ hd := ih (by rw [hs]; exact List.mem_cons_self hd tl)
      have htl : ∀ x ∈ tl, sep ∉ x := fun x hx =>
        ih (by rw [hs]; exact List.mem_cons_of_mem _ hx)
      rw [splitOnChar_cons_ne cs h hs] at hl
      rcases List.mem_cons.mp hl with h1 | h1
      · subst h1
        intro hmem
        rcases List.mem_cons.mp hmem with h2 | h2
        · exact h h2.symm
        · exact hhd h2
      · exact htl l h1

theorem splitOnChar_of_not_mem {sep : Char} {l : Str} (h : sep ∉ l) :
    splitOnChar sep l = [l] := by
  induction l with
  | nil => rfl
  | cons c cs ih =>
    simp only [List.mem_cons, not_or] at h
    have hc : ¬ c = sep := fun e => h.1 e.symm
    rw [splitOnChar_cons_ne cs hc (ih h.2)]

theorem splitOnChar_append_cons {sep : Char} {l : Str} (rest : Str) (h : sep ∉ l) :
    splitOnChar sep (l ++ sep :: rest) = l :: splitOnChar sep rest := by
  induction l with
  | nil =>
    rw [List.nil_append, splitOnChar_sep_cons]
  | cons c cs ih =>
    simp only [List.mem_cons, not_or] at h
    have hc : ¬ c = sep := fun e => h.1 e.symm
    rw [List.cons_append, splitOnChar_cons_ne _ hc (ih h.2)]

theorem splitOnChar_concat_sep (sep : Char) (X : Str) :
    splitOnChar sep (X ++ [sep]) = splitOnChar sep X ++ [[]] := by
  induction X with
  | nil =>
    rw [List.nil_append, splitOnChar_sep_cons]
    rfl
  | cons c X ih =>
    by_cases h : c = sep
    · subst h
      rw [List.cons_append, splitOnChar_sep_cons, splitOnChar_sep_cons, ih]
      rfl
    · obtain ⟨hd, tl, hs⟩ := splitOnChar_eq_cons sep X
      have hs2 : splitOnChar sep (X ++ [sep]) = hd :: (tl ++ [[]]) := by
        rw [ih, hs]; rfl
      rw [List.cons_append, splitOnChar_cons_ne _ h hs2, splitOnChar_cons_ne _ h hs]
      rfl

theorem joinNL_concat {Q : List Str} (q : Str) (h : Q ≠ []) :
    joinNL (Q ++ [q]) = joinNL Q ++ '\n' :: q := by
  induction Q with
  | nil => exact absurd rfl h
  | cons x Q ih =>
    cases Q with
    | nil => rfl
    | cons y Q2 =>
      rw [List.cons_append, joinNL_cons_of_ne_nil _ (by simp),
        joinNL_cons_of_ne_nil _ (by simp), ih (by simp), List.append_assoc]
      rfl

theorem dropWhile_dropWhile {α : Type} (p : α → Bool) (xs : List α) :
    (xs.dropWhile p).dropWhile p = xs.dropWhile p := by
  induction xs with
  | nil => rfl
  | cons x xs ih =>
    by_cases h : p x = true
    · rw [List.dropWhile_cons_of_pos h, ih]
    · rw [List.dropWhile_cons_of_neg h, List.dropWhile_cons_of_neg h]

theorem dropWhile_first_false {α : Type} {p : α → Bool} {xs : List α} {y : α}
    {ys : List α} (h : xs.dropWhile p = y :: ys) : p y = false := by
  have hh := List.head?_dropWhile_not p xs
  rw [h] at hh
  exact hh

theorem mem_of_getLast?_eq_some {α : Type} {l : List α} {c : α}
    (h : l.getLast? = some c) : c ∈ l := by
  rcases List.eq_nil_or_concat l with h1 | ⟨L, b, h1⟩
  · subst h1; simp at h
  · subst h1
    rw [List.concat_eq_append, List.getLast?_concat] at h
    injection h with h
    subst h
    simp [List.concat_eq_append]

theorem trimTrailingWS_idem (l : Str) :
    trimTrailingWS (trimTrailingWS l) = trimTrailingWS l := by
  unfold trimTrailingWS
  rw [List.reverse_reverse, dropWhile_dropWhile]

theorem trimTrailingWS_getLast {l : Str} {c : Char}
    (h : (trimTrailingWS l).getLast? = some c) : isWS c = false := by
  unfold trimTrailingWS at h
  rw [List.getLast?_reverse] at h
  cases hd : l.reverse.dropWhile isWS with
  | nil => rw [hd] at h; simp at h
  | cons y ys =>
    rw [hd] at h
    simp only [List.head?_cons, Option.some.injEq] at h
    subst h
    exact dropWhile_first_false hd

theorem not_mem_trimTrailingWS {c : Char} {l : Str} (h : c ∉ l) :
    c ∉ trimTrailingWS l := by
  unfold trimTrailingWS
  rw [List.mem_reverse]
  intro hc
  exact h (List.mem_reverse.mp ((List.dropWhile_sublist _).subset hc))

theorem dropTrailingNL_concat (X : Str) :
    dropTrailingNL (X ++ ['\n']) = dropTrailingNL X := by
  unfold dropTrailingNL
  rw [List.reverse_append]
  simp only [List.reverse_cons, List.reverse_nil, List.nil_append, List.singleton_append]
  rw [List.dropWhile_cons_of_pos (by decide)]

theorem dropTrailingNL_of_getLast {X : Str} (h : X.getLast? ≠ some '\n') :
    dropTrailingNL X = X := by
  unfold dropTrailingNL
  cases hr : X.reverse with
  | nil =>
    have hX : X = [] := List.reverse_eq_nil_iff.mp hr
    subst hX; rfl
  | cons y ys =>
    have hy : X.getLast? = some y := by
      rw [← List.head?_reverse, hr]; rfl
    have hne : ¬ ((y == '\n') = true) := by
      intro he
      exact h (by rw [hy, eq_of_beq he])
    rw [List.dropWhile_cons, if_neg hne, ← hr, List.reverse_reverse]

/-- Remove the maximal run of empty pieces at the end of a piece list (the
pieces whose separators form the trailing newline run of the joined string). -/
def dropTrailingEmpties (P : List Str) : List Str :=
  (P.reverse.dropWhile (fun l => l.isEmpty)).reverse

theorem dropTrailingEmpties_concat_empty (Q : List Str) :
    dropTrailingEmpties (Q ++ [[]]) = dropTrailingEmpties Q := by
  unfold dropTrailingEmpties
  rw [List.reverse_append]
  simp only [List.reverse_cons, List.reverse_nil, List.nil_append, List.singleton_append]
  rw [List.dropWhile_cons_of_pos (by decide)]

theorem dropTrailingEmpties_concat_ne {q : Str} (Q : List Str) (h : q ≠ []) :
    dropTrailingEmpties (Q ++ [q]) = Q ++ [q] := by
  unfold dropTrailingEmpties
  rw [List.reverse_append]
  simp only [List.reverse_cons, List.reverse_nil, List.nil_append, List.singleton_append]
  have hne : ¬ (q.isEmpty = true) := by
    cases q with
    | nil => exact absurd rfl h
    | cons a as => simp
  rw [List.dropWhile_cons_of_neg hne, List.reverse_cons, List.reverse_reverse]

theorem mem_dropTrailingEmpties {P : List Str} {l : Str}
    (h : l ∈ dropTrailingEmpties P) : l ∈ P := by
  unfold dropTrailingEmpties at h
  rw [List.mem_reverse] at h
  exact List.mem_reverse.mp ((List.dropWhile_sublist _).subset h)

theorem getLast?_dropTrailingEmpties {P : List Str} {q : Str}
    (h : (dropTrailingEmpties P).getLast? = some q) : q ≠ [] := by
  unfold dropTrailingEmpties at h
  rw [List.getLast?_reverse] at h
  cases hd : P.reverse.dropWhile (fun l => l.isEmpty) with
  | nil => rw [hd] at h; simp at h
  | cons y ys =>
    rw [hd] at h
    simp only [List.head?_cons, Option.some.injEq] at h
    have hthis := dropWhile_first_false hd
    intro he
    rw [h, he] at hthis
    simp at hthis

theorem joinNL_getLast?_concat {q : Str} (Q : List Str) (hq : q ≠ []) :
    (joinNL (Q ++ [q])).getLast? = q.getLast? := by
  cases Q with
  | nil => rfl
  | cons x Q2 =>
    rw [joinNL_concat q (by simp), List.getLast?_append_cons]
    show (['\n'] ++ q).getLast? = q.getLast?
    exact List.getLast?_append_of_ne_nil _ hq

theorem dropTrailingNL_joinNL (P : List Str) (hP : ∀ l ∈ P, '\n' ∉ l) :
    dropTrailingNL (joinNL P) = joinNL (dropTrailingEmpties P) := by
  induction P using List.reverseRecOn with
  | nil => rfl
  | append_singleton Q q ih =>
    have hQ : ∀ l ∈ Q, '\n' ∉ l := fun l hl => hP l (List.mem_append_left _ hl)
    by_cases hq : q = []
    · subst hq
      rcases eq_or_ne Q [] with hQn | hQn
      · subst hQn; rfl
      · rw [joinNL_concat _ hQn, dropTrailingNL_concat, ih hQ,
          dropTrailingEmpties_concat_empty]
    · rw [dropTrailingEmpties_concat_ne Q hq]
      have hlast : (joinNL (Q ++ [q])).getLast? ≠ some '\n' := by
        rw [joinNL_getLast?_concat Q hq]
        intro hc
        exact hP q (List.mem_append_right _ (List.mem_singleton.mpr rfl))
          (mem_of_getLast?_eq_some hc)
      exact dropTrailingNL_of_getLast hlast

theorem splitOnChar_joinNL (R : List Str) (hR : R ≠ [])
    (h : ∀ l ∈ R, '\n' ∉ l) : splitOnChar '\n' (joinNL R) = R := by
  induction R with
  | nil => exact absurd rfl hR
  | cons l R2 ih =>
    cases R2 with
    | nil => exact splitOnChar_of_not_mem (h l (List.mem_cons_self _ _))
    | cons l2 R3 =>
      rw [joinNL_cons_of_ne_nil _ (by simp),
        splitOnChar_append_cons _ (h l (List.mem_cons_self _ _)),
        ih (by simp) (fun x hx => h x (List.mem_cons_of_mem _ hx))]

/-- The trimmed line pieces of a content string. -/
def fmtPieces (s : Str) : List Str := (splitOnChar '\n' s).map trimTrailingWS

theorem fmtPieces_noNL (s : Str) : ∀ l ∈ fmtPieces s, '\n' ∉ l := by
  intro l hl
  obtain ⟨l2, hl2, he⟩ := List.mem_map.mp hl
  subst he
  exact not_mem_trimTrailingWS (not_mem_of_mem_splitOnChar hl2)

theorem formatFileContent_eq (s : Str) :
    formatFileContent s = joinNL (dropTrailingEmpties (fmtPieces s)) ++ ['\n'] := by
  show dropTrailingNL (joinNL (fmtPieces s)) ++ ['\n'] = _
  rw [dropTrailingNL_joinNL _ (fmtPieces_noNL s)]

theorem getLast?_joinNL_dte_ne_nl (s : Str) :
    (joinNL (dropTrailingEmpties (fmtPieces s))).getLast? ≠ some '\n' := by
  rcases List.eq_nil_or_concat (dropTrailingEmpties (fmtPieces s)) with h | ⟨L, b, h⟩
  · rw [h]; simp [joinNL]
  · have hb : b ≠ [] := getLast?_dropTrailingEmpties
      (by rw [h, List.concat_eq_append]; exact List.getLast?_concat _)
    have hbNL : '\n' ∉ b := fmtPieces_noNL s b
      (mem_dropTrailingEmpties
        (by rw [h, List.concat_eq_append]; exact List.mem_append_right _ (by simp)))
    rw [h, List.concat_eq_append, joinNL_getLast?_concat L hb]
    intro hc
    exact hbNL (mem_of_getLast?_eq_some hc)

theorem format_lines_trimmed (s : Str) :
    ∀ l ∈ splitOnChar '\n' (formatFileContent s), trimTrailingWS l = l := by
  intro l hl
  rw [formatFileContent_eq, splitOnChar_concat_sep] at hl
  rcases List.mem_append.mp hl with h1 | h1
  · by_cases hR : dropTrailingEmpties (fmtPieces s) = []
    · rw [hR] at h1
      simp only [joinNL, splitOnChar, List.mem_singleton] at h1
      subst h1; rfl
    · rw [splitOnChar_joinNL _ hR
        (fun x hx => fmtPieces_noNL s x (mem_dropTrailingEmpties hx))] at h1
      obtain ⟨l2, hl2, he⟩ := List.mem_map.mp (mem_dropTrailingEmpties h1)
      subst he
      exact trimTrailingWS_idem l2
  · rw [List.mem_singleton.mp h1]; rfl

theorem getLast?_not_ws_of_trimmed {l : Str} (h : trimTrailingWS l = l) {c : Char}
    (hg : l.getLast? = some c) : isWS c = false :=
  trimTrailingWS_getLast (by rw [h, hg])

/-- C2: the normalization transform is idempotent: applying
`formatFileContent` twice yields the same result as applying it once. -/
theorem formatFileContent_idem (content : Str) :
    formatFileContent (formatFileContent content) = formatFileContent content := by
  have h1 : (splitOnChar '\n' (formatFileContent content)).map trimTrailingWS =
      splitOnChar '\n' (formatFileContent content) := by
    conv_rhs => rw [← List.map_id (splitOnChar '\n' (formatFileContent content))]
    exact List.map_congr_left (fun l hl => format_lines_trimmed content l hl)
  show dropTrailingNL
      (joinNL ((splitOnChar '\n' (formatFileContent content)).map trimTrailingWS))
      ++ ['\n'] = formatFileContent content
  rw [h1, joinNL_splitOnChar]
  conv_lhs => rw [formatFileContent_eq content]
  rw [dropTrailingNL_concat, dropTrailingNL_of_getLast (getLast?_joinNL_dte_ne_nl content),
    ← formatFileContent_eq content]

/-- C6: for every content, the output of `formatFileContent` ends with exactly
one newline (its last character is `'\n'` and the character before it, if any,
is not), and no line of the output ends with a space or a tab. -/
theorem formatFileContent_trailing (content : Str) :
    (formatFileContent content).getLast? = some '\n' ∧
    (formatFileContent content).dropLast.getLast? ≠ some '\n' ∧
    ∀ l ∈ splitOnChar '\n' (formatFileContent content),
      l.getLast? ≠ some ' ' ∧ l.getLast? ≠ some '\t' := by
  refine ⟨?_, ?_, ?_⟩
  · rw [formatFileContent_eq]
    exact List.getLast?_concat _
  · rw [formatFileContent_eq, List.dropLast_concat]
    exact getLast?_joinNL_dte_ne_nl content
  · intro l hl
    have ht := format_lines_trimmed content l hl
    constructor
    · intro hg
      have hw := getLast?_not_ws_of_trimmed ht hg
      simp [isWS] at hw
    · intro hg
      have hw := getLast?_not_ws_of_trimmed ht hg
      simp [isWS] at hw

theorem formatFileContent_trailing_witness :
    (formatFileContent (strL "a \nb")).getLast? = some '\n' ∧
    (formatFileContent (strL "a \nb")).dropLast.getLast? ≠ some '\n' ∧
    ((strL "a").getLast? ≠ some ' ' ∧ (strL "a").getLast? ≠ some '\t') :=
  ⟨(formatFileContent_trailing (strL "a \nb")).1,
   (formatFileContent_trailing (strL "a \nb")).2.1,
   (formatFileContent_trailing (strL "a \nb")).2.2 (strL "a") (by decide)⟩

/-! ## Normalizer side effects (`processFile`, src/index.js lines 194-220) -/

/-- Result record of processing one file (`processFile`'s return value). -/
structure FileOutcome where
  processed : Bool
  changed : Bool
  written : Bool
  error : Option Str
deriving DecidableEq, Repr

/-- Models `processFile(filePath, config)`.  The file system is abstracted by
the outcome of the read (`readRes`: the content, or the thrown error's
message) and of the attempted write (`writeErr`: `some msg` when
`writeFileSync` throws).  The second component of the result is the content
written to disk (`none` when no write happens, so the on-disk content is
unchanged).  Any thrown error is caught and reported as an error outcome. -/
def processFile (readRes : Except Str Str) (writeErr : Option Str)
    (dryRun : Bool) : FileOutcome × Option Str :=
  match readRes with
  | .error msg =>
    ({ processed := false, changed := false, written := false, error := some msg }, none)
  | .ok content =>
    let formatted := formatFileContent content
    if content ≠ formatted then
      if dryRun then
        ({ processed := true, changed := true, written := false, error := none }, none)
      else
        match writeErr with
        | some msg =>
          ({ processed := false, changed := false, written := false, error := some msg }, none)
        | none =>
          ({ processed := true, changed := true, written := true, error := none }, some formatted)
    else
      ({ processed := true, changed := false, written := false, error := none }, none)

/-- Aggregated run statistics (`stats` in `main`). -/
structure Stats where
  processed : Nat
  changed : Nat
  errors : Nat
  written : Nat
deriving DecidableEq, Repr

/-- JS truthiness of `result.error` in `main`'s loop: an absent error field is
falsy, and so is an empty message string. -/
def truthyErr : Option Str → Bool
  | none => false
  | some m => !m.isEmpty

/-- One iteration of `main`'s aggregation loop over the outcome of a file. -/
def tally (s : Stats) (o : FileOutcome) : Stats :=
  { processed := s.processed + (if o.processed then 1 else 0)
    changed := s.changed + (if o.changed then 1 else 0)
    errors := s.errors + (if truthyErr o.error then 1 else 0)
    written := s.written + (if o.written then 1 else 0) }

/-- One iteration of `main`'s per-file loop: process the file, record its
outcome and update the statistics. -/
def mainStep (dryRun : Bool) (acc : Stats × List FileOutcome)
    (inp : Except Str Str × Option Str) : Stats × List FileOutcome :=
  let r := processFile inp.1 inp.2 dryRun
  (tally acc.1 r.1, acc.2 ++ [r.1])

/-- Models `main`'s per-file loop: processes every target file in order,
collecting outcomes and statistics; no outcome aborts the loop. -/
def mainLoop (inputs : List (Except Str Str × Option Str)) (dryRun : Bool) :
    Stats × List FileOutcome :=
  inputs.foldl (mainStep dryRun)
    ({ processed := 0, changed := 0, errors := 0, written := 0 }, [])

theorem mainStep_foldl_length (dryRun : Bool) :
    ∀ (inputs : List (Except Str Str × Option Str)) (acc : Stats × List FileOutcome),
      ((inputs.foldl (mainStep dryRun) acc).2).length = acc.2.length + inputs.length := by
  intro inputs
  induction inputs with
  | nil => intro acc; simp
  | cons i is ih =>
    intro acc
    rw [List.foldl_cons, ih]
    simp only [mainStep, List.length_append, List.length_cons, List.length_nil]
    omega

theorem mainLoop_length (inputs : List (Except Str Str × Option Str)) (dryRun : Bool) :
    ((mainLoop inputs dryRun).2).length = inputs.length := by
  unfold mainLoop
  rw [mainStep_foldl_length]
  simp

/-- C7: in preview (dry-run) mode no file is ever written: for every read
result and every hypothetical write outcome, `processFile` with `dryRun =
true` performs no write (so the on-disk content is unchanged) and reports
`written = false`. -/
theorem processFile_dry_run_no_write (readRes : Except Str Str)
    (writeErr : Option Str) :
    (processFile readRes writeErr true).2 = none ∧
    (processFile readRes writeErr true).1.written = false := by
  cases readRes with
  | error msg => exact ⟨rfl, rfl⟩
  | ok content =>
    by_cases h : content ≠ formatFileContent content
    · simp [processFile, h]
    · simp [processFile, h]

/-- C9: every outcome produced by `processFile` satisfies
`written ⇒ changed ⇒ processed`; a set `error` field forces
`processed = false`; a read failure yields an outcome carrying the error
message with `processed = false`; a write failure (outside preview mode, on
changed content) likewise yields an outcome carrying the write error's
message with `processed = false`; and `main`'s loop still produces one
outcome per input file, so the run continues past failures. -/
theorem processFile_outcome_invariant (readRes : Except Str Str)
    (writeErr : Option Str) (dryRun : Bool) :
    ((processFile readRes writeErr dryRun).1.written = true →
      (processFile readRes writeErr dryRun).1.changed = true) ∧
    ((processFile readRes writeErr dryRun).1.changed = true →
      (processFile readRes writeErr dryRun).1.processed = true) ∧
    ((processFile readRes writeErr dryRun).1.error ≠ none →
      (processFile readRes writeErr dryRun).1.processed = false) ∧
    (∀ msg, readRes = Except.error msg →
      (processFile readRes writeErr dryRun).1.error = some msg ∧
      (processFile readRes writeErr dryRun).1.processed = false) ∧
    (∀ msg content, readRes = Except.ok content → writeErr = some msg →
      dryRun = false → content ≠ formatFileContent content →
      (processFile readRes writeErr dryRun).1.error = some msg ∧
      (processFile readRes writeErr dryRun).1.processed = false) ∧
    (∀ inputs, ((mainLoop inputs dryRun).2).length = inputs.length) := by
  refine ⟨?_, ?_, ?_, ?_, ?_, fun inputs => mainLoop_length inputs dryRun⟩
  all_goals
    cases readRes with
    | error m => simp [processFile]
    | ok c =>
      by_cases h : c ≠ formatFileContent c
      · cases dryRun <;> cases writeErr <;> simp [processFile, h]
      · have he : c = formatFileContent c := not_not.mp h
        simp [processFile, h]
        all_goals exact fun msg h1 h2 => he

theorem processFile_outcome_invariant_witness :
    ((processFile (Except.error (strL "boom")) none false).1.error = some (strL "boom") ∧
     (processFile (Except.error (strL "boom")) none false).1.processed = false) ∧
    ((processFile (Except.ok (strL "x ")) (some (strL "EACCES")) false).1.error
        = some (strL "EACCES") ∧
     (processFile (Except.ok (strL "x ")) (some (strL "EACCES")) false).1.processed
        = false) :=
  ⟨(processFile_outcome_invariant (Except.error (strL "boom")) none false).2.2.2.1
      (strL "boom") rfl,
   (processFile_outcome_invariant (Except.ok (strL "x ")) (some (strL "EACCES"))
      false).2.2.2.2.1 (strL "EACCES") (strL "x ") rfl rfl rfl (by decide)⟩

/-- C10: the transform maps empty content to a single newline, so an empty
file is reported as changed and, outside preview mode, rewritten to contain
exactly one newline character. -/
theorem formatFileContent_empty :
    formatFileContent [] = ['\n'] ∧
    processFile (Except.ok []) none false =
      ({ processed := true, changed := true, written := true, error := none },
        some ['\n']) := by
  constructor
  · rfl
  · rfl

/-! ## Argument parsing (`parseArgs`, src/index.js lines 31-72) -/

/-- JS whitespace characters recognised by `trim` and skipped by `parseInt`. -/
def isJsWS (c : Char) : Bool :=
  c == ' ' || c == '\t' || c == '\n' || c == '\r' ||
  c == '\x0b' || c == '\x0c'

/-- JS `String.prototype.trim()`. -/
def jsTrim (s : Str) : Str :=
  ((s.dropWhile isJsWS).reverse.dropWhile isJsWS).reverse

/-- Value of a (nonempty) decimal digit run. -/
def digitsToInt (ds : Str) : Int :=
  ds.foldl (fun a c => a * 10 + ((c.toNat : Int) - 48)) 0

/-- Models `parseInt(s, 10)`: skip leading whitespace, read an optional sign
and then the maximal run of decimal digits; `none` models the `NaN` result
when no digit is found. -/
def jsParseInt (s : Str) : Option Int :=
  let t := s.dropWhile isJsWS
  let signed : Int × Str :=
    match t with
    | '-' :: r => (-1, r)
    | '+' :: r => (1, r)
    | _ => (1, t)
  let ds := signed.2.takeWhile (fun c => c.isDigit)
  if ds = [] then none
  else some (signed.1 * digitsToInt ds)

example : jsParseInt (strL "42") = some 42 := by decide
example : jsParseInt (strL " -7x") = some (-7) := by decide
example : jsParseInt (strL "abc") = none := by decide
example : jsParseInt (strL "0") = some 0 := by decide

/-- `DEFAULT_EXTS` (src/index.js line 7). -/
def DEFAULT_EXTS : List Str :=
  [strL ".rs", strL ".ts", strL ".tsx", strL ".js", strL ".jsx", strL ".json",
   strL ".md", strL ".yml", strL ".yaml", strL ".css", strL ".scss",
   strL ".html", strL ".vue", strL ".py", strL ".go", strL ".java",
   strL ".cpp", strL ".c", strL ".h"]

/-- `DEFAULT_IGNORE_PATTERNS` (src/index.js lines 9-29). -/
def DEFAULT_IGNORE_PATTERNS : List Str :=
  [strL "node_modules", strL ".git", strL ".svn", strL ".hg", strL "dist",
   strL "build", strL "coverage", strL ".next", strL ".nuxt", strL "target",
   strL "vendor", strL "__pycache__", strL ".pytest_cache",
   strL ".mypy_cache", strL "venv", strL "env", strL ".env",
   strL ".DS_Store", strL "Thumbs.db"]

/-- The configuration record built by `parseArgs`. -/
structure CLIConfig where
  extensions : List Str
  ignorePatterns : List Str
  maxDepth : Int
  dryRun : Bool
  verbose : Bool
  help : Bool
  targetDir : Str
deriving DecidableEq, Repr

/-- The initial configuration of `parseArgs` (its `config` literal);
`cwd` models `process.cwd()`. -/
def defaultConfig (cwd : Str) : CLIConfig :=
  { extensions := DEFAULT_EXTS
    ignorePatterns := DEFAULT_IGNORE_PATTERNS
    maxDepth := 50
    dryRun := false
    verbose := false
    help := false
    targetDir := cwd }

def extFlag : Str := strL "--ext="
def igFlag : Str := strL "--ignore="
def mdFlag : Str := strL "--max-depth="

/-- One iteration of `parseArgs`' loop over one argument.  `res` models
`path.resolve` for the positional target-directory argument.  String
`replace` of a flag its argument is guarded to start with is modelled by
dropping that flag. -/
def parseArg (res : Str → Str) (cfg : CLIConfig) (arg : Str) : CLIConfig :=
  if arg = strL "--help" ∨ arg = strL "-h" then { cfg with help := true }
  else if arg = strL "--dry-run" ∨ arg = strL "-n" then { cfg with dryRun := true }
  else if arg = strL "--verbose" ∨ arg = strL "-v" then { cfg with verbose := true }
  else if extFlag <+: arg then
    { cfg with extensions :=
        (((splitOnChar ',' (arg.drop extFlag.length)).map jsTrim).map
          (fun e => if strL "." <+: e then e else '.' :: e)) }
  else if igFlag <+: arg then
    { cfg with ignorePatterns :=
        cfg.ignorePatterns ++ (splitOnChar ',' (arg.drop igFlag.length)).map jsTrim }
  else if mdFlag <+: arg then
    { cfg with maxDepth :=
        match jsParseInt (arg.drop mdFlag.length) with
        | none => 50
        | some n => if n = 0 then 50 else n }
  else if ¬ (strL "-" <+: arg) then { cfg with targetDir := res arg }
  else cfg

/-- Models `parseArgs(argv)`: drop the first two `argv` entries and fold the
remaining arguments over the default configuration. -/
def parseArgs (res : Str → Str) (cwd : Str) (argv : List Str) : CLIConfig :=
  (argv.drop 2).foldl (parseArg res) (defaultConfig cwd)

example :
    (parseArgs id [] [strL "node", strL "noagent", strL "--max-depth=7"]).maxDepth
      = 7 := by decide

example :
    (parseArgs id [] [strL "node", strL "noagent", strL "--max-depth=abc"]).maxDepth
      = 50 := by decide

/-- C5 counterexample: the argument value `0` is numeric
(`parseInt` returns `0`), yet `--max-depth=0` leaves `maxDepth` at the
default `50` instead of `0`, because the JS fallback `parseInt(...) || 50`
also triggers on the falsy number `0`. -/
theorem maxDepth_zero_counterexample :
    jsParseInt (strL "0") = some 0 ∧
    (parseArgs id [] [strL "node", strL "noagent", strL "--max-depth=0"]).maxDepth = 50 ∧
    (parseArgs id [] [strL "node", strL "noagent", strL "--max-depth=0"]).maxDepth ≠ 0 := by
  refine ⟨by decide, by decide, by decide⟩

theorem isPrefixOf_short_append {p l s : Str} (h : p.length ≤ l.length) :
    p <+: l ++ s ↔ p <+: l := by
  constructor
  · intro hp
    exact List.prefix_of_prefix_length_le hp (List.prefix_append l s) h
  · intro hp
    exact hp.trans (List.prefix_append l s)

/-- C5 amended: `--max-depth=<s>` sets `maxDepth` to the parsed integer `n`
whenever `s` is numeric with nonzero value; the value `0`, like non-numeric
input, falls back to the default `50`. -/
theorem maxDepth_sets_config (res : Str → Str) (cwd a0 a1 s : Str) (n : Int)
    (hs : jsParseInt s = some n) (hn : n ≠ 0) :
    (parseArgs res cwd [a0, a1, mdFlag ++ s]).maxDepth = n := by
  have harg : parseArgs res cwd [a0, a1, mdFlag ++ s]
      = parseArg res (defaultConfig cwd) (mdFlag ++ s) := rfl
  rw [harg]
  unfold parseArg
  rw [if_neg (by
    rintro (h | h) <;>
      · have := congrArg List.length h; simp [mdFlag, strL] at this)]
  rw [if_neg (by
    rintro (h | h) <;>
      · have := congrArg List.length h; simp [mdFlag, strL] at this)]
  rw [if_neg (by
    rintro (h | h) <;>
      · have := congrArg List.length h; simp [mdFlag, strL] at this)]
  rw [if_neg (by
    intro h
    rw [isPrefixOf_short_append (by decide)] at h
    exact absurd h (by decide))]
  rw [if_neg (by
    intro h
    rw [isPrefixOf_short_append (by decide)] at h
    exact absurd h (by decide))]
  rw [if_pos (List.prefix_append mdFlag s)]
  have hdrop : (mdFlag ++ s).drop mdFlag.length = s := List.drop_left mdFlag s
  rw [hdrop, hs]
  simp [hn]

theorem maxDepth_sets_config_witness :
    (parseArgs id [] [strL "node", strL "noagent", mdFlag ++ strL "7"]).maxDepth = 7 :=
  maxDepth_sets_config id [] (strL "node") (strL "noagent") (strL "7") 7
    (by decide) (by decide)

/-! ## Filesystem model

The walker's environment: a finite association list from physical absolute
paths (paths in which no proper prefix is a symlink) to node kinds.
Symbolic links are explicit nodes carrying an absolute target path.  The
syscalls `lstatSync`, `statSync` and `readdirSync` resolve logical paths to
physical ones segment by segment, following symlinks, with fuel bounding the
total number of resolution steps (the OS's `ELOOP` limit). -/

/-- Kind of a filesystem node: a directory with its entry names, a regular
file, a symbolic link with its absolute target, or another node type
(socket, device, ...). -/
inductive NodeKind where
  | dir (entries : List Str)
  | file
  | symlink (target : FsPath)
  | other
deriving DecidableEq, Repr

/-- A filesystem: association list from physical paths to node kinds. -/
abbrev FSMap := List (FsPath × NodeKind)

/-- Look up the node at a physical path. -/
def lookupFS (fs : FSMap) (p : FsPath) : Option NodeKind :=
  match fs.find? (fun e => e.1 = p) with
  | some e => some e.2
  | none => none

/-- Resolve the remaining logical segments `rest` against the physical path
`phys`, following symlinks; `none` models a resolution error (missing node
or exhausted fuel). -/
def resolveSegs (fs : FSMap) : Nat → FsPath → List Str → Option FsPath
  | _, phys, [] => some phys
  | 0, _, _ :: _ => none
  | fuel + 1, phys, seg :: rest =>
    match lookupFS fs (phys ++ [seg]) with
    | none => none
    | some (NodeKind.symlink t) =>
      match resolveSegs fs fuel [] t with
      | none => none
      | some pt => resolveSegs fs fuel pt rest
    | some _ => resolveSegs fs fuel (phys ++ [seg]) rest

/-- Models `statSync(p)`: fully resolve the path, symlinks included, and
return the kind of the target node (`none` models a thrown error). -/
def statFS (fs : FSMap) (lfuel : Nat) (p : FsPath) : Option NodeKind :=
  match resolveSegs fs lfuel [] p with
  | some phys => lookupFS fs phys
  | none => none

/-- Models `lstatSync(join(dir, entry))`: resolve the directory part, then
look the entry up without following a final symlink. -/
def lstatAt (fs : FSMap) (lfuel : Nat) (dir : FsPath) (entry : Str) : Option NodeKind :=
  match resolveSegs fs lfuel [] dir with
  | some phys => lookupFS fs (phys ++ [entry])
  | none => none

/-- Models `readdirSync(dir)`: resolve the directory (following symlinks) and
return its entry names; `none` models a thrown error. -/
def readdirFS (fs : FSMap) (lfuel : Nat) (dir : FsPath) : Option (List Str) :=
  match statFS fs lfuel dir with
  | some (NodeKind.dir es) => some es
  | _ => none

/-! ## Ignore filtering (`shouldIgnore`, src/index.js lines 100-113) -/

/-- Models `path.relative(base, p).split('/')`: strip the common prefix, go
up with `".."` segments for what remains of `base`, then down the remainder
of `p`; equal paths give the single empty segment (from `"".split('/')`). -/
def relParts (base p : FsPath) : List Str :=
  match base, p with
  | b :: bs, c :: cs => if b = c then relParts bs cs else
      (b :: bs).map (fun _ => strL "..") ++ (c :: cs)
  | [], cs => if cs = [] then [[]] else cs
  | bs, [] => bs.map (fun _ => strL "..")

/-- Characters the expanded wildcard `.*` cannot cross: JS `.` matches any
character except the line terminators. -/
def isLineTerm (c : Char) : Bool :=
  c == '\n' || c == '\r' || c == '\u2028' || c == '\u2029'

/-- All suffixes of a string: the positions an unanchored regex search may
start a match at. -/
def allSuffixes : Str → List Str
  | [] => [[]]
  | c :: s => (c :: s) :: allSuffixes s

/-- The suffixes reachable by letting one `.*` gap consume zero or more
characters, none of which is a line terminator. -/
def gapSuffixes : Str → List Str
  | [] => [[]]
  | c :: s => (c :: s) :: (if isLineTerm c then [] else gapSuffixes s)

/-- Match of the chunk sequence `c0 .* c1 .* ... .* cn` beginning exactly at
the start of the string: each literal chunk in order, each gap a run of
non-line-terminator characters, anything allowed after the last chunk. -/
def matchSeq : List Str → Str → Bool
  | [], _ => true
  | [c], s => c.isPrefixOf s
  | c :: c2 :: cs, s =>
    c.isPrefixOf s &&
      (gapSuffixes (s.drop c.length)).any (fun t => matchSeq (c2 :: cs) t)

/-- Models the wildcard branch `new RegExp(pattern.replace(/\*/g, '.*')).test(part)`
for patterns whose characters other than `'*'` are regex-literal (see
`tamePattern`): an unanchored search for the pattern's literal chunks in
order, with gaps that cannot cross line terminators (JS `.`). -/
def wildcardTest (pat part : Str) : Bool :=
  (allSuffixes part).any (fun t => matchSeq (splitOnChar '*' pat) t)

/-- Characters that stand for themselves in a JS regex outside character
classes: everything but the metacharacters. -/
def regexLiteralChar (c : Char) : Bool :=
  !(c == '^' || c == '$' || c == '\\' || c == '.' || c == '+' || c == '?' ||
    c == '(' || c == ')' || c == '[' || c == ']' || c == '\x7b' ||
    c == '\x7d' || c == '|')

/-- Patterns the wildcard model is faithful for: every character is either
the `'*'` wildcard marker or regex-literal. -/
def tamePattern (pat : Str) : Bool :=
  pat.all (fun c => c == '*' || regexLiteralChar c)

example : wildcardTest (strL "a*b") (strL "xaybz") = true := by decide
example : wildcardTest (strL "a*") (strL "ba") = true := by decide
example : wildcardTest (strL "a*b") (strL "bxa") = false := by decide
example : wildcardTest (strL "a*b") (strL "a\nb") = false := by decide
example : tamePattern (strL "a*b") = true := by decide
example : tamePattern (strL "*.log") = false := by decide

/-- One segment against one pattern: the wildcard test when the pattern
contains `'*'`, otherwise equality or the pattern being a literal prefix of
the segment (`part === pattern || part.startsWith(pattern)`). -/
def segMatches (pat part : Str) : Bool :=
  if '*' ∈ pat then wildcardTest pat part
  else decide (part = pat) || decide (pat <+: part)

/-- Models `shouldIgnore(filePath, basePath, ignorePatterns)`: some segment
of the path relative to the base matches some ignore pattern. -/
def shouldIgnore (filePath basePath : FsPath) (ignorePatterns : List Str) : Bool :=
  let pathParts := relParts basePath filePath
  ignorePatterns.any (fun pattern => pathParts.any (fun part => segMatches pattern part))

example :
    shouldIgnore [strL "r", strL "node_modules", strL "b.js"] [strL "r"]
      DEFAULT_IGNORE_PATTERNS = true := by decide

example :
    shouldIgnore [strL "r", strL "a.js"] [strL "r"]
      DEFAULT_IGNORE_PATTERNS = false := by decide

/-! ## Walker (`walkDirectory`, src/index.js lines 115-184) -/

/-- The configuration fields read by the walker (`verbose` only affects
console output and is omitted). -/
structure WalkConfig where
  targetDir : FsPath
  ignorePatterns : List Str
  maxDepth : Int
deriving DecidableEq, Repr

/-- Models `path.resolve(dir)` on the walker's directory arguments: they are
absolute and normalized (built by joining the resolved target directory with
plain entry names), so resolution is the identity.  In particular it does
NOT resolve symlinks. -/
def jsResolve (p : FsPath) : FsPath := p

/-- The loop over one directory's entries.  `step` is the recursive call
into a subdirectory (with the depth increment already applied); the visited
set is threaded left to right, as the shared JS `Set` is. -/
def walkEntries (fs : FSMap) (lfuel : Nat) (cfg : WalkConfig)
    (step : FsPath → List FsPath → List FsPath × List FsPath) (dir : FsPath) :
    List Str → List FsPath → List FsPath × List FsPath
  | [], vis => ([], vis)
  | entry :: es, vis =>
    let fullPath := dir ++ [entry]
    if shouldIgnore fullPath cfg.targetDir cfg.ignorePatterns then
      walkEntries fs lfuel cfg step dir es vis
    else
      match lstatAt fs lfuel dir entry with
      | some (NodeKind.symlink _) =>
        (match statFS fs lfuel fullPath with
         | some (NodeKind.dir _) =>
           let r := step fullPath vis
           let rest := walkEntries fs lfuel cfg step dir es r.2
           (r.1 ++ rest.1, rest.2)
         | some NodeKind.file =>
           let rest := walkEntries fs lfuel cfg step dir es vis
           (fullPath :: rest.1, rest.2)
         | _ => walkEntries fs lfuel cfg step dir es vis)
      | some (NodeKind.dir _) =>
        let r := step fullPath vis
        let rest := walkEntries fs lfuel cfg step dir es r.2
        (r.1 ++ rest.1, rest.2)
      | some NodeKind.file =>
        let rest := walkEntries fs lfuel cfg step dir es vis
        (fullPath :: rest.1, rest.2)
      | _ => walkEntries fs lfuel cfg step dir es vis

/-- Models `walkDirectory(dir, config, visited, depth)`.  `fuel` bounds the
recursion depth of the model only: the JS recursion is unbounded, and
`walkDir_fuel_irrelevant` below shows any `fuel` past the depth bound gives
the same result.  Returns the discovered files and the visited set. -/
def walkDir (fs : FSMap) (lfuel : Nat) (cfg : WalkConfig) :
    Nat → FsPath → List FsPath → Nat → List FsPath × List FsPath
  | 0, _, vis, _ => ([], vis)
  | fuel + 1, dir, vis, depth =>
    if (depth : Int) > cfg.maxDepth then ([], vis)
    else
      let realPath := jsResolve dir
      if realPath ∈ vis then ([], vis)
      else
        let vis2 := realPath :: vis
        match readdirFS fs lfuel dir with
        | none => ([], vis2)
        | some entries =>
          walkEntries fs lfuel cfg
            (fun d v => walkDir fs lfuel cfg fuel d v (depth + 1)) dir entries vis2

/-- The value computed by the unbounded JS recursion: the model with enough
fuel for the depth bound. -/
def walkTop (fs : FSMap) (lfuel : Nat) (cfg : WalkConfig) (root : FsPath) :
    List FsPath × List FsPath :=
  walkDir fs lfuel cfg (cfg.maxDepth + 2).toNat root [] 0

/-! ## Walker lemmas -/

theorem walkEntries_files_mem {fs : FSMap} {lfuel : Nat} {cfg : WalkConfig}
    {step : FsPath → List FsPath → List FsPath × List FsPath} {dir : FsPath} :
    ∀ {es : List Str} {vis : List FsPath} {f : FsPath},
      f ∈ (walkEntries fs lfuel cfg step dir es vis).1 →
      ∃ e, e ∈ es ∧
        shouldIgnore (dir ++ [e]) cfg.targetDir cfg.ignorePatterns = false ∧
        (f = dir ++ [e] ∨ ∃ v, f ∈ (step (dir ++ [e]) v).1) := by
  intro es
  induction es with
  | nil => intro vis f h; simp [walkEntries] at h
  | cons entry es ih =>
    intro vis f h
    simp only [walkEntries] at h
    split at h
    · obtain ⟨e, he, hig, hor⟩ := ih h
      exact ⟨e, List.mem_cons_of_mem _ he, hig, hor⟩
    case isFalse hig =>
      have higf : shouldIgnore (dir ++ [entry]) cfg.targetDir cfg.ignorePatterns = false := by
        revert hig
        cases shouldIgnore (dir ++ [entry]) cfg.targetDir cfg.ignorePatterns <;> simp
      split at h
      · -- symlink entry
        split at h
        · -- resolves to a directory: recursion result spliced before the rest
          rcases List.mem_append.mp h with h1 | h1
          · exact ⟨entry, List.mem_cons_self _ _, higf, Or.inr ⟨vis, h1⟩⟩
          · obtain ⟨e, he, hig2, hor⟩ := ih h1
            exact ⟨e, List.mem_cons_of_mem _ he, hig2, hor⟩
        · -- resolves to a file: pushed
          rcases List.mem_cons.mp h with h1 | h1
          · exact ⟨entry, List.mem_cons_self _ _, higf, Or.inl h1⟩
          · obtain ⟨e, he, hig2, hor⟩ := ih h1
            exact ⟨e, List.mem_cons_of_mem _ he, hig2, hor⟩
        · -- broken link or other target: skipped
          obtain ⟨e, he, hig2, hor⟩ := ih h
          exact ⟨e, List.mem_cons_of_mem _ he, hig2, hor⟩
      · -- plain directory
        rcases List.mem_append.mp h with h1 | h1
        · exact ⟨entry, List.mem_cons_self _ _, higf, Or.inr ⟨vis, h1⟩⟩
        · obtain ⟨e, he, hig2, hor⟩ := ih h1
          exact ⟨e, List.mem_cons_of_mem _ he, hig2, hor⟩
      · -- plain file
        rcases List.mem_cons.mp h with h1 | h1
        · exact ⟨entry, List.mem_cons_self _ _, higf, Or.inl h1⟩
        · obtain ⟨e, he, hig2, hor⟩ := ih h1
          exact ⟨e, List.mem_cons_of_mem _ he, hig2, hor⟩
      · -- lstat failure or other entry type: skipped
        obtain ⟨e, he, hig2, hor⟩ := ih h
        exact ⟨e, List.mem_cons_of_mem _ he, hig2, hor⟩

theorem walkDir_files_shape (fs : FSMap) (lfuel : Nat) (cfg : WalkConfig) :
    ∀ (fuel : Nat) (dir : FsPath) (vis : List FsPath) (depth : Nat) (f : FsPath),
      f ∈ (walkDir fs lfuel cfg fuel dir vis depth).1 →
      ∃ t, t ≠ [] ∧ f = dir ++ t ∧ (depth : Int) + t.length ≤ cfg.maxDepth + 1 := by
  intro fuel
  induction fuel with
  | zero => intro dir vis depth f h; simp [walkDir] at h
  | succ fuel ih =>
    intro dir vis depth f h
    simp only [walkDir] at h
    split at h
    · simp at h
    case isFalse hdep =>
      split at h
      · simp at h
      · split at h
        · simp at h
        · obtain ⟨e, _, _, hor⟩ := walkEntries_files_mem h
          rcases hor with rfl | ⟨v, hf⟩
          · refine ⟨[e], by simp, rfl, ?_⟩
            simp only [List.length_singleton]
            omega
          · obtain ⟨t, ht, rfl, hlen⟩ := ih (dir ++ [e]) v (depth + 1) f hf
            refine ⟨e :: t, by simp, by rw [List.append_assoc]; rfl, ?_⟩
            simp only [List.length_cons] at hlen ⊢
            push_cast at hlen ⊢
            omega

theorem walkDir_files_not_ignored (fs : FSMap) (lfuel : Nat) (cfg : WalkConfig) :
    ∀ (fuel : Nat) (dir : FsPath) (vis : List FsPath) (depth : Nat) (f : FsPath),
      f ∈ (walkDir fs lfuel cfg fuel dir vis depth).1 →
      shouldIgnore f cfg.targetDir cfg.ignorePatterns = false := by
  intro fuel
  induction fuel with
  | zero => intro dir vis depth f h; simp [walkDir] at h
  | succ fuel ih =>
    intro dir vis depth f h
    simp only [walkDir] at h
    split at h
    · simp at h
    · split at h
      · simp at h
      · split at h
        · simp at h
        · obtain ⟨e, _, hig, hor⟩ := walkEntries_files_mem h
          rcases hor with rfl | ⟨v, hf⟩
          · exact hig
          · exact ih (dir ++ [e]) v (depth + 1) f hf

theorem walkEntries_congr {fs : FSMap} {lfuel : Nat} {cfg : WalkConfig}
    {step1 step2 : FsPath → List FsPath → List FsPath × List FsPath} {dir : FsPath}
    (hstep : ∀ d v, step1 d v = step2 d v) :
    ∀ (es : List Str) (vis : List FsPath),
      walkEntries fs lfuel cfg step1 dir es vis = walkEntries fs lfuel cfg step2 dir es vis := by
  intro es
  induction es with
  | nil => intro vis; rfl
  | cons entry es ih =>
    intro vis
    simp only [walkEntries]
    split
    · exact ih vis
    · split
      · split
        · rw [hstep, ih]
        · rw [ih]
        · exact ih vis
      · rw [hstep, ih]
      · rw [ih]
      · exact ih vis

theorem walkDir_fuel_succ (fs : FSMap) (lfuel : Nat) (cfg : WalkConfig) :
    ∀ (fuel : Nat) (dir : FsPath) (vis : List FsPath) (depth : Nat),
      cfg.maxDepth + 2 ≤ (depth : Int) + fuel →
      walkDir fs lfuel cfg fuel dir vis depth = walkDir fs lfuel cfg (fuel + 1) dir vis depth := by
  intro fuel
  induction fuel with
  | zero =>
    intro dir vis depth hb
    have hgt : (depth : Int) > cfg.maxDepth := by push_cast at hb; omega
    simp only [walkDir]
    rw [if_pos hgt]
  | succ fuel ih =>
    intro dir vis depth hb
    simp only [walkDir]
    split
    · rfl
    · split
      · rfl
      · split
        · rfl
        · exact walkEntries_congr
            (fun d v => ih d v (depth + 1) (by push_cast at hb ⊢; omega)) _ _

theorem walkDir_fuel_add (fs : FSMap) (lfuel : Nat) (cfg : WalkConfig) :
    ∀ (k fuel : Nat) (dir : FsPath) (vis : List FsPath) (depth : Nat),
      cfg.maxDepth + 2 ≤ (depth : Int) + fuel →
      walkDir fs lfuel cfg fuel dir vis depth = walkDir fs lfuel cfg (fuel + k) dir vis depth := by
  intro k
  induction k with
  | zero => intro fuel dir vis depth _; rfl
  | succ k ih =>
    intro fuel dir vis depth hb
    rw [ih fuel dir vis depth hb]
    exact walkDir_fuel_succ fs lfuel cfg (fuel + k) dir vis depth
      (by push_cast at hb ⊢; omega)

/-! ## Walker fixtures: small concrete filesystems -/

/-- A root `r` with two symlinks `l1`, `l2` both pointing at the directory
`b`, which holds the file `f`.  The same physical target is reachable via
two different symlink chains. -/
def fsTwoLinks : FSMap :=
  [([], NodeKind.dir [strL "r", strL "b"]),
   ([strL "r"], NodeKind.dir [strL "l1", strL "l2"]),
   ([strL "b"], NodeKind.dir [strL "f"]),
   ([strL "b", strL "f"], NodeKind.file),
   ([strL "r", strL "l1"], NodeKind.symlink [strL "b"]),
   ([strL "r", strL "l2"], NodeKind.symlink [strL "b"])]

def cfgTwoLinks : WalkConfig :=
  { targetDir := [strL "r"], ignorePatterns := [], maxDepth := 50 }

/-- A root `r` whose entry `loop` is a symlink back to `r` itself: a direct
symlink cycle. -/
def fsLoop : FSMap :=
  [([], NodeKind.dir [strL "r"]),
   ([strL "r"], NodeKind.dir [strL "loop"]),
   ([strL "r", strL "loop"], NodeKind.symlink [strL "r"])]

def cfgLoop : WalkConfig :=
  { targetDir := [strL "r"], ignorePatterns := [], maxDepth := 3 }

/-- A root `r` holding one plain file `a`. -/
def fsSingle : FSMap :=
  [([strL "r"], NodeKind.dir [strL "a"]),
   ([strL "r", strL "a"], NodeKind.file)]

def cfgSingle : WalkConfig :=
  { targetDir := [strL "r"], ignorePatterns := [strL "node_modules"], maxDepth := 0 }

/-! ## Walker theorems -/

/-- C1 counterexample: the walker keys its VisitedSet with `path.resolve`,
which does not resolve symlinks, so the physical directory `b`, reached via
the two distinct symlink chains `r/l1` and `r/l2`, is entered twice and its
file `f` is collected twice — not "walked exactly once" as claimed. -/
theorem walk_symlink_double_visit :
    (walkTop fsTwoLinks 40 cfgTwoLinks [strL "r"]).1 =
      [[strL "r", strL "l1", strL "f"], [strL "r", strL "l2", strL "f"]] ∧
    (walkTop fsTwoLinks 40 cfgTwoLinks [strL "r"]).2 =
      [[strL "r", strL "l2"], [strL "r", strL "l1"], [strL "r"]] ∧
    resolveSegs fsTwoLinks 40 [] [strL "r", strL "l1"] = some [strL "b"] ∧
    resolveSegs fsTwoLinks 40 [] [strL "r", strL "l2"] = some [strL "b"] ∧
    [strL "r", strL "l1"] ≠ [strL "r", strL "l2"] := by
  refine ⟨by decide, by decide, by decide, by decide, by decide⟩

/-- C1 amended: before entering a directory the walker resolves it with
`path.resolve` — an absolute but NOT symlink-resolved path — and skips the
directory when that path is already in the VisitedSet; distinct symlink
chains yield distinct absolute paths, so the same physical target reached
via two different chains is walked once per chain rather than exactly
once. -/
theorem walkDir_visited_skip (fs : FSMap) (lfuel : Nat) (cfg : WalkConfig)
    (fuel : Nat) (dir : FsPath) (vis : List FsPath) (depth : Nat)
    (hdep : ¬ ((depth : Int) > cfg.maxDepth)) (hvis : jsResolve dir ∈ vis) :
    walkDir fs lfuel cfg (fuel + 1) dir vis depth = ([], vis) := by
  simp only [walkDir]
  rw [if_neg hdep, if_pos hvis]

theorem walkDir_visited_skip_witness :
    walkDir fsTwoLinks 40 cfgTwoLinks 3 [strL "r"] [[strL "r"]] 0 = ([], [[strL "r"]]) :=
  walkDir_visited_skip fsTwoLinks 40 cfgTwoLinks 2 [strL "r"] [[strL "r"]] 0
    (by decide) (by decide)

/-- C3: the walk is depth-bounded: with `maxDepth = N` every file in the
result lies at most `N` directory levels below the root (its path extends
the root by a nonempty suffix of at most `N + 1` segments); in particular
with `maxDepth = 0` only the root's immediate file entries appear. -/
theorem walk_depth_bound (fs : FSMap) (lfuel : Nat) (cfg : WalkConfig) (N : Nat)
    (hN : cfg.maxDepth = (N : Int)) (root : FsPath) (f : FsPath)
    (hf : f ∈ (walkTop fs lfuel cfg root).1) :
    ∃ t, t ≠ [] ∧ f = root ++ t ∧ t.length ≤ N + 1 := by
  obtain ⟨t, ht, rfl, hlen⟩ := walkDir_files_shape fs lfuel cfg _ root [] 0 _ hf
  refine ⟨t, ht, rfl, ?_⟩
  rw [hN] at hlen
  push_cast at hlen
  omega

theorem walk_depth_bound_witness :
    ∃ t, t ≠ [] ∧ [strL "r", strL "a"] = [strL "r"] ++ t ∧ t.length ≤ 0 + 1 :=
  walk_depth_bound fsSingle 40 cfgSingle 0 (by decide) [strL "r"] [strL "r", strL "a"]
    (by decide)

/-- Modelled from the claim's words, for comparison with the code: the
wildcard clause read as a whole-segment match with the wildcard expanded to
zero or more of ANY character, line terminators included. -/
def specMatchSeq : List Str → Str → Bool
  | [], s => s.isEmpty
  | [c], s => decide (s = c)
  | c :: c2 :: cs, s =>
    c.isPrefixOf s &&
      (allSuffixes (s.drop c.length)).any (fun t => specMatchSeq (c2 :: cs) t)

/-- The claim's wildcard expansion of a pattern, applied to a segment. -/
def specWildcardMatch (pat part : Str) : Bool :=
  specMatchSeq (splitOnChar '*' pat) part

/-- A segment matching a pattern as the claim words it: the segment equals
the pattern, or starts with it as a literal prefix, or (when the pattern
contains the wildcard marker) matches it with the wildcard expanded to zero
or more of any character. -/
def specSegMatches (pat part : Str) : Bool :=
  decide (part = pat) || decide (pat <+: part) ||
    (if '*' ∈ pat then specWildcardMatch pat part else false)

/-- A root `r` containing a directory whose name `"a\nb"` embeds a line
terminator and holds the file `f`; the ignore pattern is `"a*b"`. -/
def fsNewline : FSMap :=
  [([strL "r"], NodeKind.dir [strL "a\nb"]),
   ([strL "r", strL "a\nb"], NodeKind.dir [strL "f"]),
   ([strL "r", strL "a\nb", strL "f"], NodeKind.file)]

def cfgNewline : WalkConfig :=
  { targetDir := [strL "r"], ignorePatterns := [strL "a*b"], maxDepth := 50 }

/-- C4 counterexample: by the claim's wording the segment `"a\nb"` matches
the ignore pattern `"a*b"` (the wildcard expanded to "zero or more of any
character" covers the line terminator), so no file under that segment may
appear in the traversal result; but the code's regex `/a.*b/` does not let
`.` cross a line terminator, the entry is not skipped, and the file
`r/"a\nb"/f` appears in the result. -/
theorem walk_spec_wildcard_counterexample :
    specSegMatches (strL "a*b") (strL "a\nb") = true ∧
    (strL "a*b") ∈ cfgNewline.ignorePatterns ∧
    (strL "a\nb") ∈ relParts cfgNewline.targetDir [strL "r", strL "a\nb", strL "f"] ∧
    (walkTop fsNewline 40 cfgNewline [strL "r"]).1 =
      [[strL "r", strL "a\nb", strL "f"]] := by
  refine ⟨by decide, by decide, by decide, by decide⟩

/-- C4 amended: for ignore patterns whose characters other than the wildcard
marker carry no special regex meaning, every segment of every result file's
path relative to the root fails every ignore pattern, where a star-pattern
is tested by the translated regex's unanchored search in which the expanded
wildcard matches zero or more of any characters EXCEPT line terminators;
contrapositively an entry with a matching segment is skipped without
descending and no file under it appears in the traversal result. -/
theorem walk_ignored_excluded (fs : FSMap) (lfuel : Nat) (cfg : WalkConfig)
    (root f : FsPath) (pat part : Str)
    (htame : ∀ p ∈ cfg.ignorePatterns, tamePattern p = true)
    (hf : f ∈ (walkTop fs lfuel cfg root).1)
    (hp : pat ∈ cfg.ignorePatterns)
    (hpart : part ∈ relParts cfg.targetDir f) :
    segMatches pat part = false := by
  have h := walkDir_files_not_ignored fs lfuel cfg _ root [] 0 f hf
  simp only [shouldIgnore, List.any_eq_false, List.any_eq_true, not_exists,
    not_and] at h
  have h2 := h pat hp part hpart
  cases e : segMatches pat part
  · rfl
  · exact absurd e h2

theorem walk_ignored_excluded_witness :
    segMatches (strL "node_modules") (strL "a") = false :=
  walk_ignored_excluded fsSingle 40 cfgSingle [strL "r"] [strL "r", strL "a"]
    (strL "node_modules") (strL "a") (by decide) (by decide) (by decide) (by decide)

/-- C8: the traversal terminates on every filesystem, including ones whose
symlinks point back at ancestors: the result is independent of the model's
recursion allowance once it covers the depth bound, so the unbounded JS
recursion reaches no deeper and returns the same finite list. -/
theorem walkDir_fuel_irrelevant (fs : FSMap) (lfuel : Nat) (cfg : WalkConfig)
    (root : FsPath) (fuel : Nat) (h : (cfg.maxDepth + 2).toNat ≤ fuel) :
    walkDir fs lfuel cfg fuel root [] 0 = walkTop fs lfuel cfg root := by
  unfold walkTop
  obtain ⟨k, rfl⟩ : ∃ k, fuel = (cfg.maxDepth + 2).toNat + k :=
    ⟨fuel - (cfg.maxDepth + 2).toNat, by omega⟩
  exact (walkDir_fuel_add fs lfuel cfg k (cfg.maxDepth + 2).toNat root [] 0
    (by simp [Int.self_le_toNat])).symm

theorem walkDir_fuel_irrelevant_witness :
    walkDir fsLoop 40 cfgLoop 9 [strL "r"] [] 0 = walkTop fsLoop 40 cfgLoop [strL "r"] :=
  walkDir_fuel_irrelevant fsLoop 40 cfgLoop [strL "r"] 9 (by decide)

end Noagent
